import Mathlib

/-!
Verification of the NSQ client command model and wire encoder
(`command.go` of wuYin/go-nsq).

Bytes are modelled as natural numbers below 256 where it matters; byte
strings are `List Nat`.  Go's `[]byte` fields that distinguish `nil` from
a present empty slice are modelled as `Option (List Nat)`.  The output
sink (`io.Writer`) is modelled as a state machine whose `write` returns
the next state, the reported byte count and an optional error, matching
Go's `Write(p []byte) (n int, err error)`.
-/

namespace NSQ

/-- Bytes of an ASCII string literal, as Go's `[]byte(s)` conversion
(UTF-8; identical to code points for the ASCII literals used here). -/
def strBytes (s : String) : List Nat :=
  s.data.map Char.toNat

/-- `var byteSpace = []byte(" ")`. -/
def byteSpace : List Nat := [32]

/-- `var byteNewLine = []byte("\n")`. -/
def byteNewLine : List Nat := [10]

/-- Big-endian 4-byte encoding of a `uint32`, as produced by
`binary.BigEndian.PutUint32(buf, uint32 n)`; the `% 256` on each byte
realises the `uint32` truncation of the Go conversion. -/
def putUint32BE (n : Nat) : List Nat :=
  [n / 2 ^ 24 % 256, n / 2 ^ 16 % 256, n / 2 ^ 8 % 256, n % 256]

/-- The unsigned big-endian value of a 4-byte list (decoder side). -/
def ofBE4 : List Nat → Nat
  | [a, b, c, d] => ((a * 256 + b) * 256 + c) * 256 + d
  | _ => 0

/-- `type Command struct { Name []byte; Params [][]byte; Body []byte }`.
`Body` is `Option` because Go distinguishes a nil slice (absent body)
from a present zero-length one. -/
structure Command where
  Name : List Nat
  Params : List (List Nat)
  Body : Option (List Nat)
  deriving DecidableEq, Repr

/-- An abstract output sink: `write` consumes a chunk and yields the next
sink state, the byte count it reports and an optional error, as Go's
`io.Writer`. -/
structure Writer (σ ε : Type) where
  write : σ → List Nat → σ × Nat × Option ε

/-- The in-memory buffer sink: appends the chunk, reports its full
length, never fails (the contract of `bytes.Buffer.Write`). -/
def bufWriter (ε : Type) : Writer (List Nat) ε :=
  ⟨fun s p => (s ++ p, p.length, none)⟩

/-- The params loop of `Command.WriteTo`: for each param write one space
byte then the param bytes, accumulating the count and stopping at the
first error. -/
def writeParams (w : Writer σ ε) : List (List Nat) → σ → Nat → σ × Nat × Option ε
  | [], s, total => (s, total, none)
  | p :: ps, s, total =>
    match w.write s byteSpace with
    | (s', n, some err) => (s', total + n, some err)
    | (s', n, none) =>
      match w.write s' p with
      | (s'', m, some err) => (s'', total + n + m, some err)
      | (s'', m, none) => writeParams w ps s'' (total + n + m)

/-- `func (c *Command) WriteTo(w io.Writer) (int64, error)`: write the
name, then space-prefixed params, then a newline, then — when `Body` is
non-nil — the 4-byte big-endian body length and the body; return the
cumulative count and the first error, stopping at it. -/
def Command.WriteTo (c : Command) (w : Writer σ ε) (s : σ) : σ × Nat × Option ε :=
  match w.write s c.Name with
  | (s', n, some err) => (s', n, some err)
  | (s', n, none) =>
    match writeParams w c.Params s' n with
    | (s'', total, some err) => (s'', total, some err)
    | (s'', total, none) =>
      match w.write s'' byteNewLine with
      | (s₃, m, some err) => (s₃, total + m, some err)
      | (s₃, m, none) =>
        match c.Body with
        | none => (s₃, total + m, none)
        | some body =>
          match w.write s₃ (putUint32BE body.length) with
          | (s₄, k, some err) => (s₄, total + m + k, some err)
          | (s₄, k, none) =>
            match w.write s₄ body with
            | (s₅, j, some err) => (s₅, total + m + k + j, some err)
            | (s₅, j, none) => (s₅, total + m + k + j, none)

/-- The exact bytes `WriteTo` emits, obtained by running it against the
in-memory buffer sink. -/
def encBytes (c : Command) : List Nat :=
  (c.WriteTo (bufWriter Unit) []).1

/-- `func (c *Command) String() string`: name alone without params,
otherwise name, one space, and the space-joined params.  The result is
returned as its byte sequence. -/
def Command.String (c : Command) : List Nat :=
  if c.Params.length > 0 then
    c.Name ++ byteSpace ++ (c.Params.intersperse byteSpace).flatten
  else
    c.Name

/-- `func Identify(js map[string]interface{}) (*Command, error)`:
`json.Marshal` is external to this file, so it is abstracted as a
`marshal` argument; on its failure no command is produced, otherwise the
command is `IDENTIFY` with no params and the marshalled body. -/
def Identify (marshal : α → Except ε (List Nat)) (js : α) : Option Command × Option ε :=
  match marshal js with
  | Except.error e => (none, some e)
  | Except.ok body => (some ⟨strBytes "IDENTIFY", [], some body⟩, none)

/-- `func Auth(secret string) (*Command, error)`: `[]byte(secret)` is a
non-nil slice, so the body is always present. -/
def Auth (ε : Type) (secret : List Nat) : Option Command × Option ε :=
  (some ⟨strBytes "AUTH", [], some secret⟩, none)

/-- `func Register(topic string, channel string) *Command`. -/
def Register (topic channel : List Nat) : Command :=
  let params := if channel.length > 0 then [topic, channel] else [topic]
  ⟨strBytes "REGISTER", params, none⟩

/-- `func UnRegister(topic string, channel string) *Command`. -/
def UnRegister (topic channel : List Nat) : Command :=
  let params := if channel.length > 0 then [topic, channel] else [topic]
  ⟨strBytes "UNREGISTER", params, none⟩

/-- `func Ping() *Command`. -/
def Ping : Command := ⟨strBytes "PING", [], none⟩

/-- `func Publish(topic string, body []byte) *Command`. -/
def Publish (topic : List Nat) (body : Option (List Nat)) : Command :=
  ⟨strBytes "PUB", [topic], body⟩

/-- `strconv.Itoa`, over the bytes of the decimal rendering. -/
def itoa (n : Int) : List Nat := strBytes (toString n)

/-- `func DeferredPublish(topic string, delay time.Duration, body []byte)
*Command`: the delay (nanoseconds) is divided by `time.Millisecond`
with Go's truncating integer division and rendered in decimal. -/
def DeferredPublish (topic : List Nat) (delay : Int) (body : Option (List Nat)) : Command :=
  ⟨strBytes "DPUB", [topic, itoa (Int.tdiv delay 1000000)], body⟩

/-- A write of `binary.Write(buf, binary.BigEndian, v)` of a 4-byte
value into a buffer: the buffer write of the big-endian bytes, yielding
the buffer's (never-failing) error. -/
def binaryWriteU32 (ε : Type) (buf : List Nat) (n : Nat) : List Nat × Option ε :=
  match (bufWriter ε).write buf (putUint32BE n) with
  | (buf', _, e) => (buf', e)

/-- The body-assembly loop of `MultiPublish`: for each message write its
`int32` length big-endian then its bytes, returning at the first
error. -/
def mpubAppend (ε : Type) : List Nat → List (List Nat) → List Nat × Option ε
  | buf, [] => (buf, none)
  | buf, b :: bs =>
    match binaryWriteU32 ε buf b.length with
    | (buf', some e) => (buf', some e)
    | (buf', none) =>
      match (bufWriter ε).write buf' b with
      | (buf'', _, some e) => (buf'', some e)
      | (buf'', _, none) => mpubAppend ε buf'' bs

/-- `func MultiPublish(topic string, bodies [][]byte) (*Command, error)`:
assemble `uint32` count then `(int32 length, bytes)` pairs in an
in-memory buffer, returning `nil` and the error if any write fails. -/
def MultiPublish (ε : Type) (topic : List Nat) (bodies : List (List Nat)) :
    Option Command × Option ε :=
  let params := [topic]
  match binaryWriteU32 ε [] bodies.length with
  | (_, some e) => (none, some e)
  | (buf, none) =>
    match mpubAppend ε buf bodies with
    | (_, some e) => (none, some e)
    | (buf', none) => (some ⟨strBytes "MPUB", params, some buf'⟩, none)

/-- `func Subscribe(topic string, channel string) *Command`. -/
def Subscribe (topic channel : List Nat) : Command :=
  ⟨strBytes "SUB", [topic, channel], none⟩

/-- `func Ready(count int) *Command`. -/
def Ready (count : Int) : Command :=
  ⟨strBytes "RDY", [itoa count], none⟩

/-- Modelled from the spec: `MessageID`, declared in a repository file
outside the provided sources, is a fixed 16-byte opaque token. -/
def MessageID : Type := { l : List Nat // l.length = 16 }

instance : DecidableEq MessageID := fun a b =>
  decidable_of_iff (a.val = b.val) Subtype.ext_iff.symm

/-- `func Finish(id MessageID) *Command`: the single param is `id[:]`,
the raw bytes. -/
def Finish (id : MessageID) : Command :=
  ⟨strBytes "FIN", [id.val], none⟩

/-- `func Requeue(id MessageID, delay time.Duration) *Command`. -/
def Requeue (id : MessageID) (delay : Int) : Command :=
  ⟨strBytes "REQ", [id.val, itoa (Int.tdiv delay 1000000)], none⟩

/-- `func Touch(id MessageID) *Command`. -/
def Touch (id : MessageID) : Command :=
  ⟨strBytes "TOUCH", [id.val], none⟩

/-- `func StartClose() *Command`. -/
def StartClose : Command := ⟨strBytes "CLS", [], none⟩

/-- `func Nop() *Command`. -/
def Nop : Command := ⟨strBytes "NOP", [], none⟩

/-- The ordered sequence of chunks §4.2 of the spec prescribes for one
command: the name, then for each param a space chunk and the param, then
the newline, then — when a body is present — its 4-byte big-endian
length and the body bytes. -/
def specChunks (c : Command) : List (List Nat) :=
  c.Name :: ((c.Params.flatMap fun p => [byteSpace, p]) ++ [byteNewLine] ++
    match c.Body with
    | none => []
    | some b => [putUint32BE b.length, b])

/-- Modelled from the spec: write the given chunks to the sink in order,
return the cumulative reported byte count and the first error, and
perform no further writes once a write fails. -/
def specWrite (w : Writer σ ε) : σ → Nat → List (List Nat) → σ × Nat × Option ε
  | s, total, [] => (s, total, none)
  | s, total, chunk :: rest =>
    match w.write s chunk with
    | (s', n, some err) => (s', total + n, some err)
    | (s', n, none) => specWrite w s' (total + n) rest

/-- Tokenisation of a command line by a conforming decoder: split at
every single space byte. -/
def splitSp : List Nat → List (List Nat)
  | [] => [[]]
  | b :: rest =>
    if b = 32 then [] :: splitSp rest
    else
      match splitSp rest with
      | [] => [[b]]
      | t :: ts => (b :: t) :: ts

/-- A conforming decoder of the wire format: take the first line up to
the newline byte, split it at single space bytes into the name and the
params, then — when bytes follow the newline — read a 4-byte big-endian
length and exactly that many body bytes. -/
def decodeCmd (bs : List Nat) : Option Command :=
  let toks := splitSp (bs.takeWhile fun b => b != 10)
  match bs.dropWhile fun b => b != 10 with
  | [] => none
  | _ :: after =>
    if after = [] then some ⟨toks.headD [], toks.tail, none⟩
    else if after.length = 4 + ofBE4 (after.take 4) then
      some ⟨toks.headD [], toks.tail, some (after.drop 4)⟩
    else none

/-- Space-joined byte tokens, as the spec describes the human-readable
rendering (`name + one space + space-joined params`). -/
def spaceJoin : List (List Nat) → List Nat
  | [] => []
  | [p] => p
  | p :: ps => p ++ 32 :: spaceJoin ps

/-- A 16-byte message identifier whose final byte is the space
delimiter. -/
def idWithSpace : MessageID :=
  ⟨[65, 65, 65, 65, 65, 65, 65, 65, 65, 65, 65, 65, 65, 65, 65, 32], by decide⟩

/-- A concrete interchange-format encoder used to exercise `Identify`:
it fails on `false` and succeeds on `true`. -/
def marshalModel : Bool → Except Unit (List Nat) :=
  fun b => if b then Except.ok [123, 125] else Except.error ()

theorem specWrite_append (w : Writer σ ε) (xs ys : List (List Nat)) (s : σ) (t : Nat) :
    specWrite w s t (xs ++ ys) =
      match specWrite w s t xs with
      | (s', t', some e) => (s', t', some e)
      | (s', t', none) => specWrite w s' t' ys := by
  induction xs generalizing s t with
  | nil => simp [specWrite]
  | cons x xs ih =>
    rw [List.cons_append]
    simp only [specWrite]
    rcases hw : w.write s x with ⟨s', n, e⟩
    cases e with
    | some err => simp
    | none => simp [ih]

theorem writeParams_eq_specWrite (w : Writer σ ε) (ps : List (List Nat)) (s : σ) (t : Nat) :
    writeParams w ps s t = specWrite w s t (ps.flatMap fun p => [byteSpace, p]) := by
  induction ps generalizing s t with
  | nil => simp [writeParams, specWrite]
  | cons p ps ih =>
    rw [List.flatMap_cons]
    simp only [writeParams, List.cons_append, specWrite]
    rcases hw : w.write s byteSpace with ⟨s', n, e⟩
    cases e with
    | some err => simp
    | none =>
      simp only [List.singleton_append, specWrite]
      rcases hw2 : w.write s' p with ⟨s'', m, e2⟩
      cases e2 with
      | some err => simp
      | none => simp [ih, Nat.add_assoc]

theorem WriteTo_eq_specWrite (c : Command) (w : Writer σ ε) (s : σ) :
    c.WriteTo w s = specWrite w s 0 (specChunks c) := by
  simp only [Command.WriteTo, specChunks, specWrite]
  rcases hw : w.write s c.Name with ⟨s', n, e⟩
  cases e with
  | some err => simp
  | none =>
    simp only [Nat.zero_add]
    rw [writeParams_eq_specWrite, List.append_assoc, specWrite_append]
    rcases hps : specWrite w s' n (c.Params.flatMap fun p => [byteSpace, p]) with ⟨s'', total, e2⟩
    cases e2 with
    | some err => simp
    | none =>
      simp only [List.singleton_append, specWrite]
      rcases hnl : w.write s'' byteNewLine with ⟨s₃, m, e3⟩
      cases e3 with
      | some err => simp
      | none =>
        rcases hbody : c.Body with _ | b
        · simp [specWrite]
        · simp only [specWrite]

theorem specWrite_buf (ε : Type) (chunks : List (List Nat)) (s : List Nat) (t : Nat) :
    specWrite (bufWriter ε) s t chunks =
      (s ++ chunks.flatten, t + chunks.flatten.length, none) := by
  induction chunks generalizing s t with
  | nil => simp [specWrite]
  | cons c cs ih =>
    have hw : (bufWriter ε).write s c = (s ++ c, c.length, none) := rfl
    simp only [specWrite, hw, ih]
    simp [Nat.add_assoc]

theorem flatten_paramChunks (ps : List (List Nat)) :
    (ps.flatMap fun p => [byteSpace, p]).flatten = ps.flatMap fun p => 32 :: p := by
  induction ps with
  | nil => rfl
  | cons p ps ih =>
    simp only [List.flatMap_cons, List.flatten_append, ih]
    simp [byteSpace]

/-- The exact bytes emitted for a command: the name, the space-prefixed
params, the newline, then — for a present body — the big-endian length
and the body. -/
theorem encBytes_eq (c : Command) :
    encBytes c =
      c.Name ++ (c.Params.flatMap fun p => 32 :: p) ++ [10] ++
        (match c.Body with
         | none => []
         | some b => putUint32BE b.length ++ b) := by
  rw [encBytes, WriteTo_eq_specWrite, specWrite_buf]
  rcases c with ⟨name, params, body⟩
  simp only [specChunks]
  cases body <;>
    simp [flatten_paramChunks, byteNewLine, List.append_assoc]

theorem putUint32BE_length (n : Nat) : (putUint32BE n).length = 4 := rfl

theorem ofBE4_putUint32BE (n : Nat) (h : n < 2 ^ 32) :
    ofBE4 (putUint32BE n) = n := by
  simp only [putUint32BE, ofBE4]
  omega

theorem splitSp_no_space (l : List Nat) (h : 32 ∉ l) : splitSp l = [l] := by
  induction l with
  | nil => rfl
  | cons b rest ih =>
    have hb : ¬b = 32 := fun e => h (by simp [e])
    have h2 : 32 ∉ rest := fun m => h (List.mem_cons_of_mem _ m)
    simp [splitSp, hb, ih h2]

theorem splitSp_append (l r : List Nat) (h : 32 ∉ l) :
    splitSp (l ++ 32 :: r) = l :: splitSp r := by
  induction l with
  | nil => simp [splitSp]
  | cons b rest ih =>
    have hb : ¬b = 32 := fun e => h (by simp [e])
    have h2 : 32 ∉ rest := fun m => h (List.mem_cons_of_mem _ m)
    simp [splitSp, hb, ih h2]

theorem splitSp_line (params : List (List Nat)) (name : List Nat)
    (hn : 32 ∉ name) (hp : ∀ p ∈ params, 32 ∉ p) :
    splitSp (name ++ params.flatMap fun p => 32 :: p) = name :: params := by
  induction params generalizing name with
  | nil => simp [splitSp_no_space name hn]
  | cons p ps ih =>
    have h1 : name ++ ((p :: ps).flatMap fun q => 32 :: q) =
        name ++ 32 :: (p ++ ps.flatMap fun q => 32 :: q) := by simp
    rw [h1, splitSp_append name _ hn,
      ih p (hp p (by simp)) fun q m => hp q (by simp [m])]

theorem takeWhile_line (l r : List Nat) (h : 10 ∉ l) :
    (l ++ 10 :: r).takeWhile (fun b => b != 10) = l := by
  induction l with
  | nil => simp [List.takeWhile_cons]
  | cons b rest ih =>
    have hb : (b != 10) = true := by
      simp only [bne_iff_ne, ne_eq]
      exact fun e => h (by simp [e])
    have h2 : 10 ∉ rest := fun m => h (List.mem_cons_of_mem _ m)
    simp [List.takeWhile_cons, hb, ih h2]

theorem dropWhile_line (l r : List Nat) (h : 10 ∉ l) :
    (l ++ 10 :: r).dropWhile (fun b => b != 10) = 10 :: r := by
  induction l with
  | nil => simp [List.dropWhile_cons]
  | cons b rest ih =>
    have hb : (b != 10) = true := by
      simp only [bne_iff_ne, ne_eq]
      exact fun e => h (by simp [e])
    have h2 : 10 ∉ rest := fun m => h (List.mem_cons_of_mem _ m)
    simp [List.dropWhile_cons, hb, ih h2]

theorem spaceJoin_intersperse (ps : List (List Nat)) :
    (ps.intersperse byteSpace).flatten = spaceJoin ps := by
  induction ps with
  | nil => rfl
  | cons p ps ih =>
    cases ps with
    | nil => simp [spaceJoin]
    | cons q qs =>
      rw [List.intersperse_cons_cons]
      simp only [List.flatten_cons, ih]
      simp [spaceJoin, byteSpace]

theorem mpubAppend_eq (ε : Type) (buf : List Nat) (bodies : List (List Nat)) :
    mpubAppend ε buf bodies =
      (buf ++ bodies.flatMap fun b => putUint32BE b.length ++ b, none) := by
  induction bodies generalizing buf with
  | nil => simp [mpubAppend]
  | cons b bs ih =>
    have h1 : binaryWriteU32 ε buf b.length = (buf ++ putUint32BE b.length, none) := rfl
    have h2 : (bufWriter ε).write (buf ++ putUint32BE b.length) b =
        (buf ++ putUint32BE b.length ++ b, b.length, none) := rfl
    simp only [mpubAppend, h1, h2, ih]
    simp [List.append_assoc]

/-- C1: for every constructed Command, encode writes exactly the name
bytes, then for each params entry in order one space byte followed by
that entry's bytes, then one newline byte; then, if and only if a body
is present, a 4-byte big-endian unsigned integer equal to the body's
exact byte length followed by the raw body bytes; if the body is
absent, nothing is written after the newline. -/
theorem encode_wire_layout (c : Command)
    (hb : ∀ b, c.Body = some b → b.length < 2 ^ 32) :
    encBytes c =
      c.Name ++ (c.Params.flatMap fun p => 32 :: p) ++ [10] ++
        (match c.Body with
         | none => []
         | some b => putUint32BE b.length ++ b) ∧
    ∀ b, c.Body = some b →
      (putUint32BE b.length).length = 4 ∧
        ofBE4 (putUint32BE b.length) = b.length :=
  ⟨encBytes_eq c, fun b h =>
    ⟨putUint32BE_length _, ofBE4_putUint32BE _ (hb b h)⟩⟩

/-- Witness for C1 at the spec's example PUB("test", "hello"). -/
theorem encode_wire_layout_witness :
    (∀ b, (Publish (strBytes "test") (some (strBytes "hello"))).Body = some b →
      b.length < 2 ^ 32) ∧
    encBytes (Publish (strBytes "test") (some (strBytes "hello"))) =
      strBytes "PUB test\n" ++ [0, 0, 0, 5] ++ strBytes "hello" :=
  have hb : ∀ b, (Publish (strBytes "test") (some (strBytes "hello"))).Body = some b →
      b.length < 2 ^ 32 := fun b h => by
    injection h with h2
    subst h2
    decide
  ⟨hb, ((encode_wire_layout _ hb).1).trans (by decide)⟩

/-- C2: the body built by MultiPublish is the 4-byte big-endian count
of the payloads followed by, for each payload in order, its 4-byte
big-endian length then its raw bytes, with no separators. -/
theorem multiPublish_body_format (ε : Type) (t : List Nat) (bodies : List (List Nat))
    (hn : bodies.length < 2 ^ 32) (hb : ∀ b ∈ bodies, b.length < 2 ^ 32) :
    MultiPublish ε t bodies =
      (some ⟨strBytes "MPUB", [t],
        some (putUint32BE bodies.length ++
          bodies.flatMap fun b => putUint32BE b.length ++ b)⟩, none) ∧
    ofBE4 (putUint32BE bodies.length) = bodies.length ∧
    ∀ b ∈ bodies, ofBE4 (putUint32BE b.length) = b.length := by
  refine ⟨?_, ofBE4_putUint32BE _ hn, fun b m => ofBE4_putUint32BE _ (hb b m)⟩
  have h1 : binaryWriteU32 ε [] bodies.length = (putUint32BE bodies.length, none) := rfl
  simp only [MultiPublish, h1, mpubAppend_eq]

/-- Witness for C2 at the spec's example MPUB("t", ["a", "bb"]): the
body is 0x00000002, then 0x00000001 "a", then 0x00000002 "bb". -/
theorem multiPublish_body_format_witness :
    [strBytes "a", strBytes "bb"].length < 2 ^ 32 ∧
    MultiPublish Unit (strBytes "t") [strBytes "a", strBytes "bb"] =
      (some ⟨strBytes "MPUB", [strBytes "t"],
        some [0, 0, 0, 2, 0, 0, 0, 1, 97, 0, 0, 0, 2, 98, 98]⟩, none) := by
  refine ⟨by decide, ?_⟩
  have h := (multiPublish_body_format Unit (strBytes "t") [strBytes "a", strBytes "bb"]
    (by decide) (by decide)).1
  exact h.trans (by decide)

/-- C3 fails as stated: for a FIN command whose 16-byte message id
contains a space byte, the conforming decoder splits the id at that
space and does not recover the original params. -/
theorem roundtrip_fails_on_space_id :
    decodeCmd (encBytes (Finish idWithSpace)) ≠ some (Finish idWithSpace) := by
  decide

/-- C3 as amended: the decoder applied to the encoder's bytes recovers
the name, the params and the body exactly for every Command whose name
and params are free of space and newline bytes and whose body, when
present, is shorter than 2^32 bytes; ids (or topics) containing the
space or newline delimiter are excluded. -/
theorem decode_encode_roundtrip (c : Command)
    (hname : 32 ∉ c.Name ∧ 10 ∉ c.Name)
    (hparams : ∀ p ∈ c.Params, 32 ∉ p ∧ 10 ∉ p)
    (hbody : ∀ b, c.Body = some b → b.length < 2 ^ 32) :
    decodeCmd (encBytes c) = some c := by
  obtain ⟨hn32, hn10⟩ := hname
  have h10line : 10 ∉ c.Name ++ c.Params.flatMap fun p => 32 :: p := by
    intro m
    rcases List.mem_append.mp m with h | h
    · exact hn10 h
    · rw [List.mem_flatMap] at h
      obtain ⟨p, hpMem, hm⟩ := h
      rcases List.mem_cons.mp hm with h' | h'
      · omega
      · exact (hparams p hpMem).2 h'
  have hsplit := splitSp_line c.Params c.Name hn32 fun p m => (hparams p m).1
  rw [encBytes_eq c]
  rcases hbody' : c.Body with _ | b
  · have harr : c.Name ++ (c.Params.flatMap fun p => 32 :: p) ++ [10] ++ [] =
        (c.Name ++ c.Params.flatMap fun p => 32 :: p) ++ 10 :: [] := by simp
    rw [harr]
    simp only [decodeCmd]
    rw [takeWhile_line _ _ h10line, dropWhile_line _ _ h10line, hsplit]
    rw [← hbody']
    simp
  · have hlt := hbody b hbody'
    have harr : c.Name ++ (c.Params.flatMap fun p => 32 :: p) ++ [10] ++
          (putUint32BE b.length ++ b) =
        (c.Name ++ c.Params.flatMap fun p => 32 :: p) ++
          10 :: (putUint32BE b.length ++ b) := by simp
    rw [harr]
    simp only [decodeCmd]
    rw [takeWhile_line _ _ h10line, dropWhile_line _ _ h10line, hsplit]
    have hne : ¬putUint32BE b.length ++ b = [] := by simp [putUint32BE]
    have htake : (putUint32BE b.length ++ b).take 4 = putUint32BE b.length := by
      simp [putUint32BE]
    have hdrop : (putUint32BE b.length ++ b).drop 4 = b := by
      simp [putUint32BE]
    have hlenEq : (putUint32BE b.length ++ b).length =
        4 + ofBE4 ((putUint32BE b.length ++ b).take 4) := by
      rw [htake, ofBE4_putUint32BE _ hlt]
      simp [putUint32BE]
      omega
    simp only [List.headD_cons, List.tail_cons, if_neg hne, if_pos hlenEq, hdrop]
    rw [← hbody']

/-- Witness for the amended C3 at SUB("topic", "chan"). -/
theorem decode_encode_roundtrip_witness :
    decodeCmd (encBytes (Subscribe (strBytes "topic") (strBytes "chan"))) =
      some (Subscribe (strBytes "topic") (strBytes "chan")) :=
  decode_encode_roundtrip _ (by decide) (by decide) fun b h => nomatch h

/-- C4: encode writes the prescribed chunks to the sink strictly in
order, returns the cumulative reported byte count together with the
first error the sink reported, performs no further writes once a write
fails, and passes the error through unmodified. -/
theorem writeTo_count_and_first_error (c : Command) (w : Writer σ ε) (s : σ) :
    c.WriteTo w s = specWrite w s 0 (specChunks c) :=
  WriteTo_eq_specWrite c w s

/-- C5: FIN's single param is the 16 raw id bytes, it has no body, and
it encodes to "FIN ", the raw id bytes and a newline, with nothing
following. -/
theorem finish_wire_shape (id : MessageID) :
    Finish id = ⟨strBytes "FIN", [id.val], none⟩ ∧
    id.val.length = 16 ∧
    encBytes (Finish id) = strBytes "FIN " ++ id.val ++ [10] := by
  refine ⟨rfl, id.property, ?_⟩
  rw [encBytes_eq]
  have h1 : strBytes "FIN " = strBytes "FIN" ++ [32] := by decide
  show strBytes "FIN" ++ ([id.val].flatMap fun p => 32 :: p) ++ [10] ++ [] = _
  simp [h1]

/-- C6: IDENTIFY construction fails exactly when the option map cannot
be marshalled; on failure no Command is produced, and on success the
Command has name IDENTIFY, no params and the marshalled body. -/
theorem identify_error_behaviour (marshal : α → Except ε (List Nat)) (js : α) :
    ((Identify marshal js).2.isSome ↔ ∃ e, marshal js = Except.error e) ∧
    (∀ e, marshal js = Except.error e → Identify marshal js = (none, some e)) ∧
    ∀ b, marshal js = Except.ok b →
      Identify marshal js = (some ⟨strBytes "IDENTIFY", [], some b⟩, none) := by
  rcases h : marshal js with e | b <;> simp [Identify, h]

/-- Witness for C6 on a concrete fallible marshaller. -/
theorem identify_error_behaviour_witness :
    Identify marshalModel false = (none, some ()) ∧
    Identify marshalModel true =
      (some ⟨strBytes "IDENTIFY", [], some [123, 125]⟩, none) :=
  ⟨(identify_error_behaviour marshalModel false).2.1 () rfl,
   (identify_error_behaviour marshalModel true).2.2 [123, 125] rfl⟩

/-- C7: REGISTER and UNREGISTER carry params [topic, channel] when the
channel is non-empty and [topic] when it is empty, and no body. -/
theorem register_unregister_params (topic channel : List Nat) :
    Register topic channel =
      ⟨strBytes "REGISTER",
        if channel = [] then [topic] else [topic, channel], none⟩ ∧
    UnRegister topic channel =
      ⟨strBytes "UNREGISTER",
        if channel = [] then [topic] else [topic, channel], none⟩ := by
  cases channel <;> simp [Register, UnRegister]

/-- C8: describe returns the name alone when there are no params and
otherwise the name, one space and the space-joined params; the body
never appears, and describe(REGISTER("topic","chan")) is
"REGISTER topic chan". -/
theorem describe_rendering (c : Command) :
    Command.String c =
      (if c.Params = [] then c.Name else c.Name ++ 32 :: spaceJoin c.Params) ∧
    Command.String (Register (strBytes "topic") (strBytes "chan")) =
      strBytes "REGISTER topic chan" := by
  constructor
  · rcases hp : c.Params with _ | ⟨p, ps⟩
    · simp [Command.String, hp]
    · simp [Command.String, hp, ← spaceJoin_intersperse, byteSpace]
  · decide

/-- C9: body presence is decided solely by the nil-ness of the Body
field: a nil payload encodes to the command line alone, while a present
zero-length payload encodes a 0x00000000 length field, so the two
produce different wire bytes; Auth's body is always present. -/
theorem body_presence_wire (t : List Nat) (d : Int) :
    encBytes (Publish t none) = strBytes "PUB" ++ 32 :: t ++ [10] ∧
    encBytes (Publish t (some [])) =
      (strBytes "PUB" ++ 32 :: t ++ [10]) ++ [0, 0, 0, 0] ∧
    encBytes (Publish t none) ≠ encBytes (Publish t (some [])) ∧
    encBytes (DeferredPublish t d (some [])) =
      encBytes (DeferredPublish t d none) ++ [0, 0, 0, 0] ∧
    encBytes (DeferredPublish t d none) ≠ encBytes (DeferredPublish t d (some [])) ∧
    (Auth Unit []).1 = some ⟨strBytes "AUTH", [], some []⟩ ∧
    encBytes ⟨strBytes "AUTH", [], some []⟩ = strBytes "AUTH" ++ [10, 0, 0, 0, 0] := by
  have h0 : putUint32BE 0 = [0, 0, 0, 0] := rfl
  have h1 : encBytes (Publish t none) = strBytes "PUB" ++ 32 :: t ++ [10] := by
    rw [encBytes_eq]
    simp [Publish]
  have h2 : encBytes (Publish t (some [])) =
      (strBytes "PUB" ++ 32 :: t ++ [10]) ++ [0, 0, 0, 0] := by
    rw [encBytes_eq]
    simp [Publish, h0]
  have h4 : encBytes (DeferredPublish t d (some [])) =
      encBytes (DeferredPublish t d none) ++ [0, 0, 0, 0] := by
    rw [encBytes_eq, encBytes_eq]
    simp [DeferredPublish, h0]
  refine ⟨h1, h2, ?_, h4, ?_, rfl, by decide⟩
  · intro h
    rw [h1, h2] at h
    simp at h
  · intro h
    rw [h4] at h
    simp at h

/-- C10: Auth returns a nil error for every secret, and MultiPublish
returns a nil error and a command for every topic and payload list: its
serialization-error branches are unreachable because the in-memory
buffer writes cannot fail. -/
theorem auth_multiPublish_never_error (ε : Type) (s t : List Nat)
    (bodies : List (List Nat)) :
    (Auth ε s).2 = none ∧
    (MultiPublish ε t bodies).2 = none ∧ (MultiPublish ε t bodies).1.isSome := by
  have h1 : binaryWriteU32 ε [] bodies.length = (putUint32BE bodies.length, none) := rfl
  refine ⟨rfl, ?_, ?_⟩ <;> simp [MultiPublish, h1, mpubAppend_eq]

end NSQ
